import Mathlib

/-!
Shallow embedding of the HYPER-OP.RS library (src/lib.rs): the binary
exponentiation helper `big_pow`, the hyperoperation evaluator `hyper_op`
and the public Ackermann facade `A`, over unbounded naturals (`BigUint`
values are modelled as `Nat`). A Rust panic (out-of-bounds index,
`BigUint` subtraction underflow) and loop divergence are both modelled
as `none`; a normal return of `v` is `some v`.
-/

/-- The constant `core::u32::MAX` used as the fast-path bound in `big_pow`. -/
def u32Max : Nat := 4294967295

/-- The `loop` block of `big_pow` (src/lib.rs lines 66-76): one iteration
multiplies the accumulator by the current base when the low bit of `e` is
set, halves `e`, squares the base, and stops when `e` has become one, in
which case the caller folds in one final multiplication (`out * b`).
When `e` reaches 0 the real loop never exits, which we model as `none`. -/
def powLoop (out b e : Nat) : Option Nat :=
  if h : e = 0 then none
  else if e / 2 = 1 then some ((if e % 2 = 1 then out * b else out) * (b * b))
  else powLoop (if e % 2 = 1 then out * b else out) (b * b) (e / 2)
termination_by e
decreasing_by exact Nat.div_lt_self (Nat.pos_of_ne_zero h) (by omega)

/-- Embedding of `big_pow` (src/lib.rs lines 43-78). When `exp` fits in a
`u32` the code returns `b.pow(e.to_u32_digits()[0])`; `to_u32_digits` of
zero is the empty vector, so indexing it at 0 panics, modelled by `none`.
Otherwise zero and one bases return early and the squaring loop runs. -/
def big_pow (b e : Nat) : Option Nat :=
  if e ≤ u32Max then
    if e = 0 then none
    else some (b ^ e)
  else if b = 0 then some b
  else if b = 1 then some 1
  else powLoop 1 b e

/-- Iterate a fallible step function `k` times from `out`, propagating
failure: this is the shape of the exponent-walk loop in `hyper_op`. -/
def iterOpt (f : Nat → Option Nat) : Nat → Nat → Option Nat
  | out, 0 => some out
  | out, k + 1 => (f out).bind (fun o => iterOpt f o k)

/-- Embedding of `hyper_op` (src/lib.rs lines 87-120). Orders 0, 1, 2
return successor, sum and product of the operands; order 3 delegates to
`big_pow` (before any zero-exponent check); at order ≥ 4 a zero exponent
returns 1 and otherwise an accumulator starting at `base` is rewritten
`exp - 1` times by a recursive call at order `n - 1`. -/
def hyper_op : Nat → Nat → Nat → Option Nat
  | 0, _, exp => some (exp + 1)
  | 1, base, exp => some (base + exp)
  | 2, base, exp => some (base * exp)
  | 3, base, exp => big_pow base exp
  | n + 4, base, exp =>
    if exp = 0 then some 1
    else iterOpt (hyper_op (n + 3) base) base (exp - 1)

/-- Embedding of the public fn `A` (src/lib.rs lines 138-149):
`hyper_op(m, 2, n + 3) - 3`, where `BigUint` subtraction panics on
underflow, modelled by the guard. -/
def A (m n : Nat) : Option Nat :=
  match hyper_op m 2 (n + 3) with
  | none => none
  | some v => if v < 3 then none else some (v - 3)

/-- Fuel-indexed variant of `hyper_op`: fuel is charged once per descent
to the next lower order (the only self-recursive call site), and `none`
is returned when it runs out. Used to state that recursion depth is
bounded by the order, independently of the exponent. -/
def hyper_op_fuel : Nat → Nat → Nat → Nat → Option Nat
  | 0, _, _, _ => none
  | _ + 1, 0, _, exp => some (exp + 1)
  | _ + 1, 1, base, exp => some (base + exp)
  | _ + 1, 2, base, exp => some (base * exp)
  | _ + 1, 3, base, exp => big_pow base exp
  | fuel + 1, n + 4, base, exp =>
    if exp = 0 then some 1
    else iterOpt (hyper_op_fuel fuel (n + 3) base) base (exp - 1)

/-! ## Helper lemmas -/

/-- The squaring loop computes `out * b ^ e` whenever it is entered with
an exponent of at least two (as `big_pow` always does). -/
theorem powLoop_eq (e : Nat) (h2 : 2 ≤ e) : ∀ out b, powLoop out b e = some (out * b ^ e) := by
  induction e using Nat.strong_induction_on with
  | _ e ih =>
    intro out b
    rw [powLoop, dif_neg (show ¬ e = 0 by omega)]
    have hsplit : 2 * (e / 2) + e % 2 = e := Nat.div_add_mod e 2
    have hbb : (b * b) ^ (e / 2) = b ^ (2 * (e / 2)) := by
      rw [two_mul, pow_add, mul_pow]
    by_cases h1 : e / 2 = 1
    · rw [if_pos h1]
      have he : e = 2 ∨ e = 3 := by omega
      rcases he with rfl | rfl
      · rw [if_neg (by decide)]
        congr 1
        ring
      · rw [if_pos (by decide)]
        congr 1
        ring
    · rw [if_neg h1]
      rw [ih (e / 2) (Nat.div_lt_self (by omega) (by omega)) (by omega)]
      congr 1
      by_cases hm : e % 2 = 1
      · rw [if_pos hm, hbb]
        calc out * b * b ^ (2 * (e / 2))
            = out * b ^ (2 * (e / 2) + 1) := by rw [pow_succ]; ring
          _ = out * b ^ e := by rw [show 2 * (e / 2) + 1 = e by omega]
      · rw [if_neg hm, hbb]
        rw [show 2 * (e / 2) = e by omega]

/-- For every positive exponent, `big_pow` returns exactly `b ^ e`. -/
theorem big_pow_pos (b e : Nat) (he : 1 ≤ e) : big_pow b e = some (b ^ e) := by
  unfold big_pow
  by_cases hle : e ≤ u32Max
  · rw [if_pos hle, if_neg (by omega)]
  · rw [if_neg hle]
    by_cases hb0 : b = 0
    · subst hb0
      rw [if_pos rfl, Nat.zero_pow (by omega)]
    · rw [if_neg hb0]
      by_cases hb1 : b = 1
      · subst hb1
        rw [if_pos rfl, one_pow]
      · rw [if_neg hb1]
        rw [powLoop_eq e (by unfold u32Max at hle; omega) 1 b, one_mul]

/-- Iterating one more step is iterating and then applying the step. -/
theorem iterOpt_succ (f : Nat → Option Nat) :
    ∀ k out, iterOpt f out (k + 1) = (iterOpt f out k).bind f := by
  intro k
  induction k with
  | zero =>
    intro out
    cases h : f out <;> simp [iterOpt, h]
  | succ k ih =>
    intro out
    show (f out).bind (fun o => iterOpt f o (k + 1))
        = ((f out).bind (fun o => iterOpt f o k)).bind f
    cases h : f out with
    | none => rfl
    | some o =>
      show iterOpt f o (k + 1) = (iterOpt f o k).bind f
      exact ih o

/-- Pointwise equal step functions iterate to the same result. -/
theorem iterOpt_congr (f g : Nat → Option Nat) (h : ∀ o, f o = g o) :
    ∀ k out, iterOpt f out k = iterOpt g out k := by
  intro k
  induction k with
  | zero => intro out; rfl
  | succ k ih =>
    intro out
    show (f out).bind (fun o => iterOpt f o k) = (g out).bind (fun o => iterOpt g o k)
    rw [h out]
    cases g out with
    | none => rfl
    | some o => exact ih o

/-- Exponent-walk bound at base 2: iterating a step that succeeds and
strictly grows on every input at least 1 keeps succeeding, gaining at
least one per iteration. -/
theorem iter2_ge (n : Nat)
    (ihn : ∀ y, 1 ≤ y → ∃ v, hyper_op n 2 y = some v ∧ y + 1 ≤ v) :
    ∀ k out, 2 ≤ out →
      ∃ v, iterOpt (hyper_op n 2) out k = some v ∧ out + k ≤ v := by
  intro k
  induction k with
  | zero =>
    intro out hout
    exact ⟨out, rfl, by omega⟩
  | succ k ih =>
    intro out hout
    obtain ⟨o, ho, hgo⟩ := ihn out (by omega)
    obtain ⟨v, hv, hle⟩ := ih o (by omega)
    refine ⟨v, ?_, by omega⟩
    show (hyper_op n 2 out).bind (fun o => iterOpt (hyper_op n 2) o k) = some v
    rw [ho]
    exact hv

/-- At base 2 every hyperoperation of a positive exponent succeeds and
exceeds the exponent: `hyper_op m 2 x = some v` with `v ≥ x + 1`. -/
theorem hyper2_ge : ∀ m x : Nat, 1 ≤ x → ∃ v, hyper_op m 2 x = some v ∧ x + 1 ≤ v := by
  intro m
  induction m using Nat.strong_induction_on with
  | _ m ih =>
    match m with
    | 0 =>
      intro x _
      exact ⟨x + 1, rfl, Nat.le_refl _⟩
    | 1 =>
      intro x _
      exact ⟨2 + x, rfl, by omega⟩
    | 2 =>
      intro x hx
      exact ⟨2 * x, rfl, by omega⟩
    | 3 =>
      intro x hx
      refine ⟨2 ^ x, big_pow_pos 2 x hx, ?_⟩
      have := Nat.lt_two_pow x
      omega
    | n + 4 =>
      intro x hx
      obtain ⟨v, hv, hle⟩ := iter2_ge (n + 3) (ih (n + 3) (by omega)) (x - 1) 2 (by omega)
      refine ⟨v, ?_, by omega⟩
      simp only [hyper_op, if_neg (show ¬ x = 0 by omega), hv]

/-- The fuelled evaluator agrees with the evaluator whenever the fuel
exceeds the order. -/
theorem hyper_op_fuel_agree :
    ∀ fuel n base exp, n < fuel → hyper_op_fuel fuel n base exp = hyper_op n base exp := by
  intro fuel
  induction fuel with
  | zero =>
    intro n _ _ h
    omega
  | succ f ih =>
    intro n base exp h
    match n with
    | 0 => rfl
    | 1 => rfl
    | 2 => rfl
    | 3 => rfl
    | n + 4 =>
      simp only [hyper_op_fuel, hyper_op]
      by_cases hz : exp = 0
      · rw [if_pos hz, if_pos hz]
      · rw [if_neg hz, if_neg hz]
        exact iterOpt_congr _ _ (fun o => ih (n + 3) base o (by omega)) (exp - 1) base

/-- The order-4 evaluator at base 0 maps exponent 0 to 1 and exponent 1
to 0; these are the two values the parity alternation cycles through. -/
theorem hyper_four_zero : hyper_op 4 0 0 = some 1 ∧ hyper_op 4 0 1 = some 0 := by
  constructor <;> rfl

/-- A step taking 0 to 1 and 1 to 0 alternates under iteration. -/
theorem iter_alt (f : Nat → Option Nat) (h0 : f 0 = some 1) (h1 : f 1 = some 0) :
    ∀ k, iterOpt f 0 k = some (k % 2) ∧ iterOpt f 1 k = some (1 - k % 2) := by
  intro k
  induction k with
  | zero => exact ⟨rfl, rfl⟩
  | succ k ih =>
    constructor
    · show (f 0).bind (fun o => iterOpt f o k) = some ((k + 1) % 2)
      rw [h0]
      show iterOpt f 1 k = some ((k + 1) % 2)
      rw [ih.2]
      congr 1
      omega
    · show (f 1).bind (fun o => iterOpt f o k) = some (1 - (k + 1) % 2)
      rw [h1]
      show iterOpt f 0 k = some (1 - (k + 1) % 2)
      rw [ih.1]
      congr 1
      omega

/-- At any order at least 5 with base 0, the evaluator returns 1 for
even exponents and 0 for odd exponents. -/
theorem hyper_zero_base (n : Nat) :
    ∀ exp, hyper_op (n + 5) 0 exp = some (if exp % 2 = 0 then 1 else 0) := by
  induction n with
  | zero =>
    intro exp
    match exp with
    | 0 => rfl
    | e + 1 =>
      have halt := (iter_alt (hyper_op 4 0) hyper_four_zero.1 hyper_four_zero.2 e).1
      show iterOpt (hyper_op 4 0) 0 e = some (if (e + 1) % 2 = 0 then 1 else 0)
      rw [halt]
      by_cases hp : (e + 1) % 2 = 0
      · rw [if_pos hp]
        congr 1
        omega
      · rw [if_neg hp]
        congr 1
        omega
  | succ k ih =>
    intro exp
    match exp with
    | 0 => rfl
    | e + 1 =>
      have h0 : hyper_op (k + 5) 0 0 = some 1 := ih 0
      have h1 : hyper_op (k + 5) 0 1 = some 0 := ih 1
      have halt := (iter_alt (hyper_op (k + 5) 0) h0 h1 e).1
      show iterOpt (hyper_op (k + 5) 0) 0 e = some (if (e + 1) % 2 = 0 then 1 else 0)
      rw [halt]
      by_cases hp : (e + 1) % 2 = 0
      · rw [if_pos hp]
        congr 1
        omega
      · rw [if_neg hp]
        congr 1
        omega

/-! ## Claims -/

/-- C1, counterexample: at order 2 the evaluator returns `base * 0 = 0`
for a zero exponent, not 1, refuting the claim as stated. -/
theorem hyper_op_exp_zero_order_two_cex : hyper_op 2 5 0 ≠ some 1 := by
  decide

/-- C1, amended: for every order at least 4 and every base, a zero
exponent yields 1 (at order 2 the result is 0, and at order 3 the call
panics inside `big_pow`). -/
theorem hyper_op_exp_zero_high_order (n base : Nat) (h : 4 ≤ n) :
    hyper_op n base 0 = some 1 := by
  obtain ⟨k, rfl⟩ : ∃ k, n = k + 4 := ⟨n - 4, by omega⟩
  rfl

/-- C1, witness at order 4, base 7. -/
theorem hyper_op_exp_zero_high_order_witness : hyper_op 4 7 0 = some 1 :=
  hyper_op_exp_zero_high_order 4 7 (by decide)

/-- C2, counterexample: `big_pow` with a zero exponent takes the
fixed-width fast path and indexes the empty digit vector of zero, a
panicking branch, so it is not total over all non-negative pairs. -/
theorem big_pow_zero_exp_cex : big_pow 2 0 = none := by
  decide

/-- C2, amended: for every base and every exponent at least 1, `big_pow`
returns a value and reaches no failing branch. -/
theorem big_pow_total_pos (b e : Nat) (h : 1 ≤ e) : (big_pow b e).isSome = true := by
  rw [big_pow_pos b e h]
  rfl

/-- C2, witness at base 3, exponent 5. -/
theorem big_pow_total_pos_witness : (big_pow 3 5).isSome = true :=
  big_pow_total_pos 3 5 (by decide)

/-- C3, counterexample: `big_pow 3 0` panics instead of returning
`3 ^ 0 = 1`, refuting exactness at exponent 0. -/
theorem big_pow_zero_exp_value_cex : big_pow 3 0 ≠ some (3 ^ 0) := by
  decide

/-- C3, amended: for every base and every exponent at least 1, `big_pow`
computes exact unbounded-precision exponentiation, on the fixed-width
fast path and on the squaring path alike. -/
theorem big_pow_correct (b e : Nat) (h : 1 ≤ e) : big_pow b e = some (b ^ e) :=
  big_pow_pos b e h

/-- C3, witness at base 5, exponent 3. -/
theorem big_pow_correct_witness : big_pow 5 3 = some (5 ^ 3) :=
  big_pow_correct 5 3 (by decide)

/-- C4: for all m, n the hyperoperation call made by `A` succeeds with a
value at least 3, and `A m n` is exactly that value minus 3, so the
subtraction never underflows. -/
theorem A_eq_hyper_op_sub_three (m n : Nat) :
    ∃ v, hyper_op m 2 (n + 3) = some v ∧ 3 ≤ v ∧ A m n = some (v - 3) := by
  obtain ⟨v, hv, hle⟩ := hyper2_ge m (n + 3) (by omega)
  refine ⟨v, hv, by omega, ?_⟩
  unfold A
  rw [hv]
  show (if v < 3 then none else some (v - 3)) = some (v - 3)
  rw [if_neg (by omega)]

/-- C5: the evaluator realises the low-order base cases: successor at
order 0 (independent of the base), addition at order 1, multiplication
at order 2. -/
theorem hyper_op_low_orders (a n : Nat) :
    hyper_op 0 a n = some (n + 1) ∧ hyper_op 1 a n = some (a + n)
      ∧ hyper_op 2 a n = some (a * n) :=
  ⟨rfl, rfl, rfl⟩

/-- C6: at every order at least 4, exponent 1 returns the base, and for
every exponent at least 2 the evaluator satisfies the right-recursion
into the next-lower order. -/
theorem hyper_op_recurrence (n base exp : Nat) (h : 4 ≤ n) :
    hyper_op n base 1 = some base
      ∧ (2 ≤ exp → hyper_op n base exp
          = (hyper_op n base (exp - 1)).bind (hyper_op (n - 1) base)) := by
  obtain ⟨k, rfl⟩ : ∃ k, n = k + 4 := ⟨n - 4, by omega⟩
  constructor
  · rfl
  · intro h2
    obtain ⟨j, rfl⟩ : ∃ j, exp = j + 2 := ⟨exp - 2, by omega⟩
    show iterOpt (hyper_op (k + 3) base) base (j + 1)
        = (iterOpt (hyper_op (k + 3) base) base j).bind (hyper_op (k + 3) base)
    exact iterOpt_succ (hyper_op (k + 3) base) j base

/-- C6, witness at order 4, base 3, exponent 2. -/
theorem hyper_op_recurrence_witness :
    hyper_op 4 3 1 = some 3
      ∧ hyper_op 4 3 2 = (hyper_op 4 3 1).bind (hyper_op 3 3) :=
  ⟨(hyper_op_recurrence 4 3 2 (by decide)).1,
    (hyper_op_recurrence 4 3 2 (by decide)).2 (by decide)⟩

set_option maxRecDepth 10000 in
set_option exponentiation.threshold 70000 in
/-- C7: the classical order-4 Ackermann values: `A 4 0 = 13`,
`A 4 1 = 65533` and `A 4 2 = 2 ^ 65536 - 3`. -/
theorem A_order_four_values :
    A 4 0 = some 13 ∧ A 4 1 = some 65533 ∧ A 4 2 = some (2 ^ 65536 - 3) :=
  ⟨by decide, by decide, by decide⟩

/-- C8: the evaluator is total and its recursion is well-founded on the
order alone: a fuel budget of `order + 1` order-descents already
reproduces the evaluator on every triple, whatever the exponent. -/
theorem hyper_op_depth_bounded (n base exp : Nat) :
    hyper_op_fuel (n + 1) n base exp = hyper_op n base exp :=
  hyper_op_fuel_agree (n + 1) n base exp (Nat.lt_succ_self n)

/-- C9: the public function `A` reaches no failing branch: for all m, n
the evaluation returns a value, so the zero-exponent panic in `big_pow`
is unreachable from `A`. -/
theorem A_total (m n : Nat) : (A m n).isSome = true := by
  obtain ⟨v, hv, hle⟩ := hyper2_ge m (n + 3) (by omega)
  unfold A
  rw [hv]
  show (if v < 3 then none else some (v - 3) : Option Nat).isSome = true
  rw [if_neg (by omega)]
  rfl

/-- C10: for every order at least 5 and base 0 the evaluator resolves to
parity alternation: 1 on even exponents and 0 on odd exponents. -/
theorem hyper_op_zero_base_parity (n exp : Nat) (h : 5 ≤ n) :
    hyper_op n 0 exp = some (if exp % 2 = 0 then 1 else 0) := by
  obtain ⟨k, rfl⟩ : ∃ k, n = k + 5 := ⟨n - 5, by omega⟩
  exact hyper_zero_base k exp

/-- C10, witness at order 5, exponent 3. -/
theorem hyper_op_zero_base_parity_witness :
    hyper_op 5 0 3 = some (if 3 % 2 = 0 then 1 else 0) :=
  hyper_op_zero_base_parity 5 3 (by decide)
